import Mathlib

/-!
# Anatree: an index for anagram lookup

A shallow embedding of `src/dict/src/anatree.h`.

The C++ class keeps its nodes behind `std::shared_ptr` and mutates them in
place, and two slots may point to the same node.  The embedding therefore
keeps an explicit heap: a list of nodes addressed by their position, with a
pointer being `none` (the null pointer) or `some a` (the node at address `a`).
Every function that writes through a pointer takes the heap and returns the
updated heap.

* Characters are modelled by `Char` under its code order, which is the
  comparison the source makes on the 7-bit range.
* Recursion over the node graph is driven by a fuel counter; running out of
  fuel is reported as `Fault.out_of_fuel`, which is kept apart from the faults
  of the program itself (a failed `assert`, a null pointer, a cursor moved
  beyond the end of its key).
* `std::sort` on characters is modelled by insertion sort: under a total order
  on characters the sorted result does not depend on the algorithm.
* The line that prints every visited node in `get_words` has no effect on the
  returned value and is left out, apart from its dereference of the pointer.
* The invariants of the reachable states are stated through `Inv`, which
  assigns to every address a depth (the number of present links above it) and
  to every blank absent child the character of its parent; `insert_word_inv`
  shows that `insert_word` keeps `Inv` and which nodes it leaves untouched.
-/

namespace Anatree

/-- The type `anatree::string`: a word is a sequence of characters. -/
abbrev string := List Char

/-- The type `node::ptr`: `none` is `nullptr`, `some a` the node at address `a`. -/
abbrev ptr := Option Nat

/-- The constant `node::NIL`. -/
def NIL : Char := '~'

/-- The class `anatree::node`; `child_false` and `child_true` are
`_children[false]` and `_children[true]`.  The defaults are those of the
member initialisers, as in `nil_node` below. -/
structure node where
  _char : Char := NIL
  child_false : ptr := none
  child_true : ptr := none
  _words : List string := []
deriving DecidableEq, Repr

/-- The node built by the constructor `node()`: NIL, no children, no words. -/
def nil_node : node :=
  { _char := NIL, child_false := none, child_true := none, _words := [] }

/-- The memory holding the nodes; address `a` is position `a`. -/
abbrev Heap := List node

/-- The ways in which a run can go wrong. -/
inductive Fault where
  /-- a null (or dangling) pointer is dereferenced -/
  | null_deref
  /-- an `assert` of the source fails -/
  | assertion
  /-- an iterator is incremented beyond `end` -/
  | cursor_past_end
  /-- a character is read at a position beyond `end` -/
  | out_of_bounds
  /-- the fuel of the model ran out (no fault of the program) -/
  | out_of_fuel
deriving DecidableEq, Repr

/-- Outcome of a run: a value or a fault. -/
inductive Res (α : Type) where
  | ok (a : α)
  | fault (f : Fault)
deriving DecidableEq, Repr

/-- The function `node::make_node()`: allocates a NIL node, both children null. -/
def make_node (h : Heap) : Heap × Nat :=
  (h ++ [nil_node], h.length)

/-- The function `node::make_node(char c)`: allocates a node with character `c`
and lets the constructor `node(const char)` give it two fresh NIL children. -/
def make_node_char (h : Heap) (c : Char) : Heap × Nat :=
  let a := h.length
  (h ++ [{ _char := c, child_false := some (a + 1), child_true := some (a + 2), _words := [] },
    nil_node, nil_node], a)

/-- Writes through a pointer: the node at address `a` is replaced by `f` of it. -/
def update (h : Heap) (a : Nat) (f : node → node) : Heap :=
  match h[a]? with
  | some n => h.set a (f n)
  | none => h

/-- The operator `++` on a key iterator at position `curr` of a key of length
`len`.  Incrementing an iterator that is at `end` is undefined behaviour; the
model reports it as the fault `cursor_past_end` and ends the run there. -/
def advance (len curr : Nat) : Res Nat :=
  if curr < len then .ok (curr + 1) else .fault .cursor_past_end

/-- The function `anatree::insert_word`; `curr` is the position of `curr_char`
in `key`, and `end` is `key.length`.  Every `++curr_char` of the source comes
after the test `curr_char == end` has failed, so it is written `curr + 1`. -/
def insert_word : Nat → Heap → ptr → string → string → Nat → Res (Heap × ptr)
  | 0, _, _, _, _, _ => .fault .out_of_fuel
  | _ + 1, _, none, _, _, _ => .fault .assertion
  | fuel + 1, h, some a, w, key, curr =>
    match h[a]? with
    | none => .fault .null_deref
    | some n =>
      -- Case: Iterator done
      if curr = key.length then
        .ok (update h a (fun m => { m with _words := m._words ++ [w] }), some a)
      else
        match key[curr]? with
        | none => .fault .out_of_bounds
        | some c =>
          -- Case: NIL
          if n._char = NIL then
            if n.child_false = none ∧ n.child_true = none then
              let h1 := update h a (fun m => { m with _char := c })
              let (h2, f) := make_node h1
              let h3 := update h2 a (fun m => { m with child_false := some f })
              let (h4, t) := make_node h3
              let h5 := update h4 a (fun m => { m with child_true := some t })
              match insert_word fuel h5 (some t) w key (curr + 1) with
              | .fault e => .fault e
              | .ok (h6, r) => .ok (update h6 a (fun m => { m with child_true := r }), some a)
            else .fault .assertion
          -- Case: Iterator behind
          else if c < n._char then
            let (h1, np) := make_node_char h c
            let h2 := update h1 np (fun m => { m with child_false := some a })
            match insert_word fuel h2 n.child_true w key (curr + 1) with
            | .fault e => .fault e
            | .ok (h3, r) => .ok (update h3 np (fun m => { m with child_true := r }), some np)
          -- Case: Iterator ahead
          else if n._char < c then
            match insert_word fuel h n.child_false w key curr with
            | .fault e => .fault e
            | .ok (h1, r) => .ok (update h1 a (fun m => { m with child_false := r }), some a)
          -- Case: Iterator and node matches
          else
            match insert_word fuel h n.child_true w key (curr + 1) with
            | .fault e => .fault e
            | .ok (h1, r) => .ok (update h1 a (fun m => { m with child_true := r }), some a)

/-- The loop `while (*curr < p->_char && curr != end) { ++curr; }` of
`get_words`.  At `curr = end` the read yields the terminator of the string and
the second operand ends the loop, so the loop stops at `end` at the latest. -/
def skip (key : string) (c : Char) : Nat → Nat → Nat
  | 0, curr => curr
  | steps + 1, curr =>
    match key[curr]? with
    | none => curr
    | some d => if d < c then skip key c steps (curr + 1) else curr

/-- The function `anatree::get_words`; `curr` is the position of `curr` in
`key`, and `end` is `key.length`.  In the equal case the source increments the
cursor twice without a test in between.  When the second increment starts at
`end`, the source goes on with the cursor at `end + 1`; the model ends the run
there with the fault `cursor_past_end`.  So a run of the model that returns a
value is a run of the source in which the cursor stays within the key, and
the two return the same value; a run of the model that ends in that fault
says nothing about what the source returns afterwards. -/
def get_words : Nat → Heap → ptr → string → Nat → Res (List string)
  | 0, _, _, _, _ => .fault .out_of_fuel
  | _ + 1, _, none, _, _ => .fault .null_deref
  | fuel + 1, h, some a, key, curr =>
    match h[a]? with
    | none => .fault .null_deref
    | some n =>
      -- Case: Iterator or Anatree is done
      if curr = key.length ∨ n._char = NIL then .ok n._words
      else
        match key[curr]? with
        | none => .fault .out_of_bounds
        | some c =>
          -- Case: Iterator behind
          if c < n._char then
            get_words fuel h (some a) key (skip key n._char (key.length - curr) curr)
          -- Case: Iterator ahead
          else if n._char < c then
            match get_words fuel h n.child_false key curr with
            | .fault e => .fault e
            | .ok rec => .ok (n._words ++ rec)
          -- Case: Iterator and node matches
          else
            match advance key.length curr with
            | .fault e => .fault e
            | .ok c1 =>
              match get_words fuel h n.child_false key c1 with
              | .fault e => .fault e
              | .ok rec_false =>
                match advance key.length c1 with
                | .fault e => .fault e
                | .ok c2 =>
                  match get_words fuel h n.child_true key c2 with
                  | .fault e => .fault e
                  | .ok rec_true => .ok (n._words ++ rec_false ++ rec_true)

/-- The function `anatree::sorted_string`: a sorted copy of `w`. -/
def sorted_string (w : string) : string :=
  w.insertionSort (· ≤ ·)

/-- The class `anatree`: a handle holding the root pointer. -/
structure anatree where
  _root : ptr
deriving DecidableEq, Repr

/-- Fuel that covers a walk over a heap of this size along a key of this length. -/
def fuel_for (h : Heap) (key : string) : Nat :=
  h.length + key.length + 2

/-- The constructor `anatree()`: the root is a fresh NIL node. -/
def anatree_new (h : Heap) : Heap × anatree :=
  let (h1, r) := make_node h
  (h1, { _root := some r })

/-- The function `anatree::insert`. -/
def insert (h : Heap) (t : anatree) (w : string) : Res (Heap × anatree) :=
  let key := sorted_string w
  match insert_word (fuel_for h key) h t._root w key 0 with
  | .fault e => .fault e
  | .ok (h1, r) => .ok (h1, { _root := r })

/-- The function `anatree::anagrams_of`. -/
def anagrams_of (h : Heap) (t : anatree) (w : string) : Res (List string) :=
  let key := sorted_string w
  get_words (fuel_for h key) h t._root key 0

/-- The function `anatree::erase`. -/
def erase (h : Heap) (_t : anatree) : Heap × anatree :=
  let (h1, r) := make_node h
  (h1, { _root := some r })

/-- The empty structure: one handle, freshly constructed, on an empty heap. -/
def empty : Heap × anatree :=
  anatree_new []

/-- Inserts the words of a list, in order, through one handle. -/
def insert_all : Heap × anatree → List string → Res (Heap × anatree)
  | s, [] => .ok s
  | s, w :: ws =>
    match insert s.1 s.2 w with
    | .fault e => .fault e
    | .ok s1 => insert_all s1 ws

/-- Looks `q` up after inserting the words `ws` into the empty structure. -/
def lookup_after (ws : List string) (q : string) : Res (List string) :=
  match insert_all empty ws with
  | .fault e => .fault e
  | .ok s => anagrams_of s.1 s.2 q

/-- The state after `insert("b")` and `insert("a")` on the empty structure. -/
def state_b_a : Heap × anatree :=
  match insert_all empty ["b".toList, "a".toList] with
  | .ok s => s
  | .fault _ => empty

/-- The state after `insert("ab")` on the empty structure. -/
def state_ab : Heap × anatree :=
  match insert_all empty ["ab".toList] with
  | .ok s => s
  | .fault _ => empty

/-- A blank node: a placeholder as `node()` builds it, with or without words. -/
def Blank (n : node) : Prop :=
  n._char = NIL ∧ n.child_false = none ∧ n.child_true = none

/-- What the node `n` at address `a` has to satisfy in a well-formed heap.
Its child pointers are addresses of the heap.  If its character is not NIL, it
has both children; the absent child lies at the same depth `d` and, if it is
not a placeholder, holds a greater character; the present child lies one level
deeper.  `lb` records, for a blank absent child, the character of its parent,
which is the bound that the child's character has to exceed once it gets one;
a blank present child has no bound. -/
def NodeOK (h : Heap) (d : Nat → Nat) (lb : Nat → Option Char) (a : Nat) (n : node) : Prop :=
  (∀ b, n.child_false = some b → b < h.length) ∧
  (∀ b, n.child_true = some b → b < h.length) ∧
  (n._char ≠ NIL →
    (∃ b, n.child_false = some b ∧ d b = d a ∧
      ∀ m, h[b]? = some m →
        (m._char ≠ NIL → n._char < m._char) ∧ (Blank m → lb b = some n._char)) ∧
    (∃ b, n.child_true = some b ∧ d b = d a + 1 ∧
      ∀ m, h[b]? = some m → Blank m → lb b = none))

/-- A heap all of whose nodes are as `NodeOK` describes. -/
def Inv (h : Heap) (d : Nat → Nat) (lb : Nat → Option Char) : Prop :=
  ∀ a n, h[a]? = some n → NodeOK h d lb a n

/-- A well-formed heap: `Inv` holds for some assignment of depths and bounds. -/
def WellFormed (h : Heap) : Prop :=
  ∃ d lb, Inv h d lb

/-- How a node may change between two heaps as seen from its parents: it keeps
its character and does not become blank, or it was blank and has been given a
character above its bound. -/
def Evolves (bound : Option Char) (m m' : node) : Prop :=
  (m'._char = m._char ∧ (Blank m' → Blank m)) ∨
    (Blank m ∧ ¬ Blank m' ∧ ∀ x, bound = some x → x < m'._char)

/-- A well-formed state: a well-formed heap whose root is an address of the
heap and, if blank, has no bound. -/
def StateOK (s : Heap × anatree) : Prop :=
  ∃ d lb r, Inv s.1 d lb ∧ s.2._root = some r ∧ r < s.1.length ∧
    ∀ m, s.1[r]? = some m → Blank m → lb r = none

/-- The states reachable from the empty structure by `insert` and `erase`. -/
inductive Reachable : Heap × anatree → Prop where
  | empty : Reachable empty
  | insert (s s1 : Heap × anatree) (w : string) :
      Reachable s → insert s.1 s.2 w = .ok s1 → Reachable s1
  | erase (s : Heap × anatree) : Reachable s → Reachable (erase s.1 s.2)

/-- A rank on the addresses that grows along both child pointers of every
node whose character is not NIL; such a rank exists only if following child
pointers never comes back to a node. -/
def Ranked (h : Heap) (rank : Nat → Nat) : Prop :=
  ∀ a n, h[a]? = some n → n._char ≠ NIL →
    (∃ b, n.child_false = some b ∧ b < h.length ∧ rank a < rank b) ∧
    (∃ b, n.child_true = some b ∧ b < h.length ∧ rank a < rank b)

/-- The number of addresses of the heap that rank above `a`. -/
def above (h : Heap) (rank : Nat → Nat) (a : Nat) : Nat :=
  ((Finset.range h.length).filter (fun x => rank a < rank x)).card

/-- The heap after the NIL case of `insert_word` has given the node at `a` the
character `c` and two fresh children, before the recursive call. -/
def materialised (h : Heap) (a : Nat) (c : Char) : Heap :=
  let h1 := update h a (fun m => { m with _char := c })
  let h3 := update (make_node h1).1 a (fun m => { m with child_false := some (make_node h1).2 })
  update (make_node h3).1 a (fun m => { m with child_true := some (make_node h3).2 })

/-- The heap after the splice case of `insert_word` has created the new node
for `c` and made the node at `a` its absent child, before the recursive call. -/
def spliced (h : Heap) (a : Nat) (c : Char) : Heap :=
  update (make_node_char h c).1 (make_node_char h c).2 (fun m => { m with child_false := some a })

/-- What a successful run of `insert_word` with the given fuel does to a
well-formed heap.  It returns the address `a1` of a node `n1` at the depth of
the node `n` it was called on; the heap is well-formed again, with the depths
and bounds of the old addresses kept.  With an exhausted cursor the node is
the same and keeps its character and children; otherwise the returned node is
not blank and holds the current key character or is the old node with its old
character.  Nodes above the starting node, and nodes of its depth with a
smaller character, are left as they were. -/
def InsertSpec (w key : string) (fuel : Nat) : Prop :=
  ∀ (h : Heap) (a curr : Nat) (d : Nat → Nat) (lb : Nat → Option Char)
    (n : node) (h1 : Heap) (r : ptr),
    Inv h d lb → h[a]? = some n →
    (Blank n → ∀ c x, key[curr]? = some c → lb a = some x → x < c) →
    insert_word fuel h (some a) w key curr = .ok (h1, r) →
    ∃ d1 lb1 a1 n1, r = some a1 ∧ Inv h1 d1 lb1 ∧ h.length ≤ h1.length ∧
      h1[a1]? = some n1 ∧
      (∀ x, x < h.length → d1 x = d x ∧ lb1 x = lb x) ∧ d1 a1 = d a ∧
      ((curr = key.length ∧ a1 = a ∧ n1._char = n._char ∧
          n1.child_false = n.child_false ∧ n1.child_true = n.child_true) ∨
        (∃ c, key[curr]? = some c ∧ ¬ Blank n1 ∧
          (n1._char = c ∨ (a1 = a ∧ n1._char = n._char ∧ n._char ≠ NIL)))) ∧
      (∀ x nx, h[x]? = some nx → x ≠ a →
        (d x < d a ∨ (d x = d a ∧ nx._char ≠ NIL ∧ (n._char ≠ NIL → nx._char < n._char))) →
        h1[x]? = some nx)

/-- The rank that depths and characters give to the addresses of a heap: the
depth counts first, then the character, with a placeholder above every
character. -/
def rank_of (h : Heap) (d : Nat → Nat) (x : Nat) : Nat :=
  d x * 4294967297 +
    (match h[x]? with
      | some n => if n._char = NIL then 4294967296 else n._char.toNat
      | none => 0)

/-- The state after `insert("b")` on the empty structure. -/
def state_b : Heap × anatree :=
  match insert_all empty ["b".toList] with
  | .ok s => s
  | .fault _ => empty

/-- The state after `insert("a")` and `insert("b")` on the empty structure. -/
def state_a_b : Heap × anatree :=
  match insert_all empty ["a".toList, "b".toList] with
  | .ok s => s
  | .fault _ => empty

/-! ## Key normalisation -/

/-- C8: for every word `w`, `sorted_string w` has the characters of `w` with
their multiplicities (it is a permutation of `w`) and is in non-decreasing
order; the function is pure, so `w` itself is untouched. -/
theorem C8_sorted_string_sorted_perm (w : string) :
    (sorted_string w).Perm w ∧ (sorted_string w).Sorted (· ≤ ·) :=
  ⟨List.perm_insertionSort _ w, List.sorted_insertionSort _ w⟩

/-- C9: two words have the same key exactly when one is a permutation of the
other. -/
theorem C9_sorted_string_eq_iff_perm (w1 w2 : string) :
    sorted_string w1 = sorted_string w2 ↔ w1.Perm w2 := by
  constructor
  · intro e
    have p1 := List.perm_insertionSort (· ≤ ·) w1
    have p2 := List.perm_insertionSort (· ≤ ·) w2
    unfold sorted_string at e
    exact p1.symm.trans (e ▸ p2)
  · intro p
    have p1 := List.perm_insertionSort (· ≤ ·) w1
    have p2 := List.perm_insertionSort (· ≤ ·) w2
    exact List.eq_of_perm_of_sorted (p1.trans (p.trans p2.symm))
      (List.sorted_insertionSort _ w1) (List.sorted_insertionSort _ w2)

/-! ## Fuel -/

/-- A run of `get_words` that does not run out of fuel gives the same outcome,
value or fault, with any larger amount of fuel. -/
theorem get_words_fuel_mono (h : Heap) (key : string) :
    ∀ (f : Nat) (p : ptr) (curr : Nat),
      get_words f h p key curr ≠ .fault .out_of_fuel →
      ∀ k, get_words (f + k) h p key curr = get_words f h p key curr := by
  intro f
  induction f with
  | zero => intro p curr ne; exact absurd rfl ne
  | succ f ih =>
    intro p curr ne k
    rw [show f + 1 + k = (f + k) + 1 by omega]
    cases p with
    | none => rfl
    | some a =>
      simp only [get_words] at ne ⊢
      cases hn : h[a]? with
      | none => rfl
      | some n =>
        simp only [hn] at ne ⊢
        split
        · rfl
        · rename_i c1
          simp only [c1, if_false] at ne
          cases hc : key[curr]? with
          | none => rfl
          | some c =>
            simp only [hc] at ne ⊢
            split
            · rename_i c2
              simp only [c2, if_true] at ne
              exact ih _ _ ne k
            · rename_i c2
              simp only [c2, if_false] at ne
              split
              · rename_i c3
                simp only [c3, if_true] at ne
                have g1 : get_words f h n.child_false key curr ≠ .fault .out_of_fuel := by
                  intro hc1; rw [hc1] at ne; exact ne rfl
                rw [ih _ _ g1 k]
              · rename_i c3
                simp only [c3, if_false] at ne
                cases ha : advance key.length curr with
                | fault x => rfl
                | ok d1 =>
                  simp only [ha] at ne ⊢
                  have g1 : get_words f h n.child_false key d1 ≠ .fault .out_of_fuel := by
                    intro hc1; rw [hc1] at ne; exact ne rfl
                  rw [ih _ _ g1 k]
                  cases h1 : get_words f h n.child_false key d1 with
                  | fault x => rfl
                  | ok rec =>
                    simp only [h1] at ne ⊢
                    cases hb : advance key.length d1 with
                    | fault x => rfl
                    | ok d2 =>
                      simp only [hb] at ne ⊢
                      have g2 : get_words f h n.child_true key d2 ≠ .fault .out_of_fuel := by
                        intro hc1; rw [hc1] at ne; exact ne rfl
                      rw [ih _ _ g2 k]

/-- A run of `insert_word` that does not run out of fuel gives the same
outcome, value or fault, with any larger amount of fuel. -/
theorem insert_word_fuel_mono (w key : string) :
    ∀ (f : Nat) (h : Heap) (p : ptr) (curr : Nat),
      insert_word f h p w key curr ≠ .fault .out_of_fuel →
      ∀ k, insert_word (f + k) h p w key curr = insert_word f h p w key curr := by
  intro f
  induction f with
  | zero => intro h p curr ne; exact absurd rfl ne
  | succ f ih =>
    intro h p curr ne k
    rw [show f + 1 + k = (f + k) + 1 by omega]
    cases p with
    | none => rfl
    | some a =>
      simp only [insert_word] at ne ⊢
      cases hn : h[a]? with
      | none => rfl
      | some n =>
        simp only [hn] at ne ⊢
        split
        · rfl
        · rename_i c1
          simp only [c1, if_false] at ne
          cases hc : key[curr]? with
          | none => rfl
          | some c =>
            simp only [hc] at ne ⊢
            split
            · rename_i c2
              simp only [c2, if_true] at ne
              split
              · rename_i c2b
                simp only [c2b, if_true] at ne
                generalize hh : update _ a _ = h5 at ne ⊢
                generalize hx : insert_word f h5 _ w key (curr + 1) = x at ne ⊢
                have g1 : x ≠ .fault .out_of_fuel := by
                  intro hc1; rw [hc1] at ne; exact ne rfl
                rw [← hx] at g1 ⊢
                rw [ih _ _ _ g1 k]
              · rfl
            · rename_i c2
              simp only [c2, if_false] at ne
              split
              · rename_i c3
                simp only [c3, if_true] at ne
                have g1 : insert_word f (update (make_node_char h c).1 (make_node_char h c).2
                    fun m => { m with child_false := some a }) n.child_true w key (curr + 1)
                    ≠ .fault .out_of_fuel := by
                  intro hc1; rw [hc1] at ne; exact ne rfl
                rw [ih _ _ _ g1 k]
              · rename_i c3
                simp only [c3, if_false] at ne
                split
                · rename_i c4
                  simp only [c4, if_true] at ne
                  have g1 : insert_word f h n.child_false w key curr ≠ .fault .out_of_fuel := by
                    intro hc1; rw [hc1] at ne; exact ne rfl
                  rw [ih _ _ _ g1 k]
                · rename_i c4
                  simp only [c4, if_false] at ne
                  have g1 : insert_word f h n.child_true w key (curr + 1)
                      ≠ .fault .out_of_fuel := by
                    intro hc1; rw [hc1] at ne; exact ne rfl
                  rw [ih _ _ _ g1 k]

/-! ## The empty structure -/

/-- A lookup that starts at a NIL node returns the words of that node. -/
theorem get_words_fresh (fuel : Nat) (h : Heap) (key : string) (curr : Nat) :
    get_words (fuel + 1) (h ++ [nil_node]) (some h.length) key curr = .ok [] := by
  simp [get_words, nil_node]

/-- C5: `anagrams_of w` is the empty sequence for every word `w`, the empty
word included, on a freshly constructed structure (on the empty heap or on any
other), and on the structure that `erase` leaves, whatever the heap `h` and the
handle `t` were before the erase. -/
theorem C5_empty_and_erased_lookup_is_empty (h : Heap) (t : anatree) (w : string) :
    anagrams_of empty.1 empty.2 w = .ok [] ∧
      anagrams_of (anatree_new h).1 (anatree_new h).2 w = .ok [] ∧
      anagrams_of (erase h t).1 (erase h t).2 w = .ok [] :=
  ⟨get_words_fresh _ [] _ 0, get_words_fresh _ h _ 0, get_words_fresh _ h _ 0⟩

/-! ## Lookup after insertion, on concrete words -/

/-- C1: after `insert("ab")` on the empty structure, `anagrams_of("ab")` is
empty, so the inserted word is not found under its own key; and after the
inserts of "listen", "silent" and "enlist", `anagrams_of("tinsel")` is empty
as well.  In the equal case `get_words` hands the present child a cursor
advanced by two. -/
theorem C1_lookup_misses_anagram :
    lookup_after ["ab".toList] "ab".toList = .ok [] ∧
      lookup_after ["listen".toList, "silent".toList, "enlist".toList] "tinsel".toList
        = .ok [] := by
  decide

/-- C2: after `insert("ab")` on the empty structure, `anagrams_of("abc")` is
empty: the stored word "ab", whose key is contained in the key of the query,
is not returned. -/
theorem C2_lookup_misses_sub_multiset :
    lookup_after ["ab".toList] "abc".toList = .ok [] := by
  decide

/-- C3: after `insert("b")` and `insert("a")`, `anagrams_of("bb")` returns
"b" and "a", although "a" shares no character with "bb"; and after
`insert("cat")`, `anagrams_of("act")` is empty and not `["cat"]`. -/
theorem C3_lookup_returns_foreign_word :
    lookup_after ["b".toList, "a".toList] "bb".toList = .ok ["b".toList, "a".toList] ∧
      ¬ (sorted_string "a".toList).Subperm (sorted_string "bb".toList) ∧
      (∀ c ∈ "a".toList, c ∉ "bb".toList) ∧
      lookup_after ["cat".toList] "act".toList = .ok [] := by
  decide

/-- C4: after inserting "ab" twice into the empty structure, `anagrams_of("ab")`
is empty, so "ab" occurs in it zero times and not twice. -/
theorem C4_lookup_misses_duplicates :
    lookup_after ["ab".toList, "ab".toList] "ab".toList = .ok [] := by
  decide

/-- C6: the first `insert("~")` on the empty structure succeeds, and the second
one fails the assertion of `insert_word` that a NIL node has no children. -/
theorem C6_insert_tilde_twice_fails_assertion :
    (∃ s, insert_all empty ["~".toList] = .ok s) ∧
      insert_all empty ["~".toList, "~".toList] = .fault .assertion := by
  refine ⟨⟨_, rfl⟩, by decide⟩

/-- C7: after `insert("a")` on the empty structure, `anagrams_of("a")`
increments the cursor beyond the end of the key: the equal case of `get_words`
increments it twice, and the key has one character. -/
theorem C7_lookup_moves_cursor_past_end :
    lookup_after ["a".toList] "a".toList = .fault .cursor_past_end := by
  decide

/-! ## Copies of a handle -/

/-- C11: in the state after `insert("ab")` the root (address 0) holds 'a' with
absent child 1 and present child 2.  On the key "abc" at cursor 0 (character
'a', the equal case) `get_words` returns `[]` at the root, while the words of
the root followed by the results of both children at cursor 1 are `["ab"]`:
the present child is searched with the cursor advanced by two, not by one.
The outcomes are the same for every larger amount of fuel. -/
theorem C11_equal_case_advances_present_cursor_twice :
    state_ab.1[0]? = some
        { _char := 'a', child_false := some 1, child_true := some 2, _words := [] } ∧
      (∀ k, get_words (4 + k) state_ab.1 (some 0) "abc".toList 0 = .ok []) ∧
      (∀ k, get_words (3 + k) state_ab.1 (some 1) "abc".toList 1 = .ok []) ∧
      (∀ k, get_words (3 + k) state_ab.1 (some 2) "abc".toList 1 = .ok ["ab".toList]) := by
  refine ⟨by decide, ?_, ?_, ?_⟩
  · intro k
    rw [get_words_fuel_mono _ _ _ _ _ (by decide) k]
    decide
  · intro k
    rw [get_words_fuel_mono _ _ _ _ _ (by decide) k]
    decide
  · intro k
    rw [get_words_fuel_mono _ _ _ _ _ (by decide) k]
    decide

/-- The loop of the skip case stops at the first position at or after `curr`
whose character is not below `c`, or at the end of the key. -/
theorem skip_spec (key : string) (c : Char) :
    ∀ (steps curr : Nat), curr ≤ key.length → key.length ≤ curr + steps →
      curr ≤ skip key c steps curr ∧ skip key c steps curr ≤ key.length ∧
      (∀ i d, curr ≤ i → i < skip key c steps curr → key[i]? = some d → d < c) ∧
      (skip key c steps curr = key.length ∨
        ∃ d, key[skip key c steps curr]? = some d ∧ ¬ d < c) := by
  intro steps
  induction steps with
  | zero =>
    intro curr h1 h2
    have e : curr = key.length := by omega
    simp only [skip]
    exact ⟨le_refl _, h1, fun i d a b => absurd b (by omega), Or.inl e⟩
  | succ steps ih =>
    intro curr h1 h2
    cases hk : key[curr]? with
    | none =>
      simp only [skip, hk]
      have e : curr = key.length := by
        rcases Nat.lt_or_ge curr key.length with l | l
        · rw [List.getElem?_eq_getElem l] at hk; cases hk
        · omega
      exact ⟨le_refl _, h1, fun i d a b => absurd b (by omega), Or.inl e⟩
    | some d0 =>
      simp only [skip, hk]
      have l : curr < key.length := by
        rcases Nat.lt_or_ge curr key.length with l | l
        · exact l
        · rw [List.getElem?_eq_none l] at hk; cases hk
      by_cases hd : d0 < c
      · simp only [hd, if_true]
        obtain ⟨i1, i2, i3, i4⟩ := ih (curr + 1) l (by omega)
        refine ⟨by omega, i2, ?_, i4⟩
        intro i d a b e
        rcases Nat.eq_or_lt_of_le a with q | q
        · subst q; rw [hk] at e; cases e; exact hd
        · exact i3 i d q b e
      · simp only [hd, if_false]
        exact ⟨le_refl _, h1, fun i d a b => absurd b (by omega), Or.inr ⟨d0, hk, hd⟩⟩

/-- In the skip case the loop moves the cursor by at least one position. -/
theorem skip_advances (key : string) (c d : Char) (curr : Nat) (hk : key[curr]? = some d)
    (hd : d < c) : curr < skip key c (key.length - curr) curr := by
  have l : curr < key.length := by
    rcases Nat.lt_or_ge curr key.length with l | l
    · exact l
    · rw [List.getElem?_eq_none l] at hk; cases hk
  obtain ⟨k, hkk⟩ : ∃ k, key.length - curr = k + 1 := ⟨key.length - curr - 1, by omega⟩
  rw [hkk]
  simp only [skip, hk, hd, if_true]
  exact (skip_spec key c k (curr + 1) l (by omega)).1

/-- C17: at a node `n` whose character is not NIL, with the cursor on a
character below that of `n`, `get_words` is `get_words` at the same node with
the cursor `curr'`, where `curr'` lies after `curr`, every character from
`curr` up to `curr'` is below that of `n`, and `curr'` is the end of the key or
holds a character that is not below that of `n`; no child is visited before. -/
theorem C17_skip_case_retries_same_node (fuel : Nat) (h : Heap) (a : Nat) (n : node)
    (key : string) (curr : Nat) (c : Char) (hn : h[a]? = some n) (hnil : n._char ≠ NIL)
    (hc : key[curr]? = some c) (hlt : c < n._char) :
    ∃ curr', curr < curr' ∧ curr' ≤ key.length ∧
      (∀ i d, curr ≤ i → i < curr' → key[i]? = some d → d < n._char) ∧
      (curr' = key.length ∨ ∃ d, key[curr']? = some d ∧ ¬ d < n._char) ∧
      get_words (fuel + 1) h (some a) key curr = get_words fuel h (some a) key curr' := by
  have l : curr < key.length := by
    rcases Nat.lt_or_ge curr key.length with l | l
    · exact l
    · rw [List.getElem?_eq_none l] at hc; cases hc
  obtain ⟨-, i2, i3, i4⟩ := skip_spec key n._char (key.length - curr) curr (by omega) (by omega)
  refine ⟨skip key n._char (key.length - curr) curr, skip_advances key _ c curr hc hlt,
    i2, i3, i4, ?_⟩
  have ne : ¬ (curr = key.length ∨ n._char = NIL) := by
    rintro (q | q)
    · omega
    · exact hnil q
  simp only [get_words, hn, ne, if_false, hc, hlt, if_true]

/-- C17 on the state after `insert("b")` and `insert("a")`: at the node of 'b'
(address 0) with the key "ab" and the cursor on 'a'. -/
theorem C17_skip_case_retries_same_node_witness :
    ∃ curr', 0 < curr' ∧ curr' ≤ "ab".toList.length ∧
      (∀ i d, 0 ≤ i → i < curr' → "ab".toList[i]? = some d → d < 'b') ∧
      (curr' = "ab".toList.length ∨ ∃ d, "ab".toList[curr']? = some d ∧ ¬ d < 'b') ∧
      get_words (3 + 1) state_b_a.1 (some 0) "ab".toList 0
        = get_words 3 state_b_a.1 (some 0) "ab".toList curr' :=
  C17_skip_case_retries_same_node 3 state_b_a.1 0
    { _char := 'b', child_false := some 1, child_true := some 2, _words := [] }
    "ab".toList 0 'a' (by decide) (by decide) (by decide) (by decide)

/-! ## Further lookups on concrete words -/

/-- C12: after `insert("")` and `insert("b")`, `anagrams_of("")` is `[""]`;
after the further `insert("a")` it is `[]`: the new node of 'a' is spliced in
front of the root, the word "" stays on the old root, and a lookup with an
exhausted cursor returns the words of the first node only. -/
theorem C12_insert_removes_lookup_result :
    lookup_after ["".toList, "b".toList] "".toList = .ok ["".toList] ∧
      lookup_after ["".toList, "b".toList, "a".toList] "".toList = .ok [] := by
  decide

/-- C13: after `insert("b")` and `insert("a")`, `anagrams_of("abb")` returns
"b" and "a" twice each, although each was inserted once: the node that holds
both words is the present child of two nodes and is visited through both. -/
theorem C13_lookup_returns_word_twice :
    lookup_after ["b".toList, "a".toList] "abb".toList
      = .ok ["b".toList, "a".toList, "b".toList, "a".toList] := by
  decide

/-- C15: after `insert("b")` and `insert("a")` the node at address 2 is the
present child both of the node of 'b' (address 0) and of the spliced node of
'a' (address 3, the root). -/
theorem C15_splice_shares_present_child :
    state_b_a =
      ([{ _char := 'b', child_false := some 1, child_true := some 2, _words := [] },
        { _char := NIL, child_false := none, child_true := none, _words := [] },
        { _char := NIL, child_false := none, child_true := none,
          _words := ["b".toList, "a".toList] },
        { _char := 'a', child_false := some 0, child_true := some 2, _words := [] },
        { _char := NIL, child_false := none, child_true := none, _words := [] },
        { _char := NIL, child_false := none, child_true := none, _words := [] }],
       { _root := some 3 }) := by
  decide

/-! ## Writing to the heap -/

theorem getElem?_update (h : Heap) (a x : Nat) (f : node → node) :
    (update h a f)[x]? = if x = a then (h[a]?).map f else h[x]? := by
  unfold update
  cases hn : h[a]? with
  | none =>
    by_cases e : x = a
    · subst e; simp [hn]
    · simp [e]
  | some n =>
    have l : a < h.length := by
      rcases Nat.lt_or_ge a h.length with l | l
      · exact l
      · rw [List.getElem?_eq_none l] at hn; cases hn
    by_cases e : x = a
    · subst e; simp [List.getElem?_set_self l]
    · have e2 : a ≠ x := fun q => e q.symm
      simp [e, List.getElem?_set_ne e2]

theorem length_update (h : Heap) (a : Nat) (f : node → node) :
    (update h a f).length = h.length := by
  unfold update
  cases h[a]? <;> simp

theorem lt_length_of_getElem? {h : Heap} {a : Nat} {n : node} (e : h[a]? = some n) :
    a < h.length := by
  rcases Nat.lt_or_ge a h.length with l | l
  · exact l
  · rw [List.getElem?_eq_none l] at e; cases e

theorem getElem?_of_lt_length {h : Heap} {a : Nat} (l : a < h.length) :
    ∃ n, h[a]? = some n :=
  ⟨h[a], List.getElem?_eq_getElem l⟩

/-! ## Keeping a heap well-formed -/

theorem evolves_refl (bound : Option Char) (m : node) : Evolves bound m m :=
  Or.inl ⟨rfl, fun b => b⟩

theorem nodeOK_transfer {h h1 : Heap} {d d1 : Nat → Nat} {lb lb1 : Nat → Option Char}
    {a : Nat} {n : node} (ok : NodeOK h d lb a n) (ha : a < h.length)
    (hlen : h.length ≤ h1.length)
    (hg : ∀ x, x < h.length → d1 x = d x ∧ lb1 x = lb x)
    (hev : ∀ b m1, b < h.length → h1[b]? = some m1 → ∃ m, h[b]? = some m ∧ Evolves (lb b) m m1) :
    NodeOK h1 d1 lb1 a n := by
  obtain ⟨cf, ct, rest⟩ := ok
  refine ⟨fun b e => lt_of_lt_of_le (cf b e) hlen, fun b e => lt_of_lt_of_le (ct b e) hlen, ?_⟩
  intro hnil
  obtain ⟨⟨b, eb, db, pb⟩, ⟨t, et, dt, pt⟩⟩ := rest hnil
  have lb_ := cf b eb
  have lt_ := ct t et
  refine ⟨⟨b, eb, by rw [(hg b lb_).1, (hg a ha).1, db], ?_⟩,
    ⟨t, et, by rw [(hg t lt_).1, (hg a ha).1, dt], ?_⟩⟩
  · intro m1 e1
    obtain ⟨m, em, ev⟩ := hev b m1 lb_ e1
    obtain ⟨p1, p2⟩ := pb m em
    rw [(hg b lb_).2]
    rcases ev with ⟨c1, c2⟩ | ⟨c1, c2, c3⟩
    · exact ⟨fun q => by rw [c1]; exact p1 (by rw [← c1]; exact q), fun q => p2 (c2 q)⟩
    · exact ⟨fun _ => c3 _ (p2 c1), fun q => absurd q c2⟩
  · intro m1 e1 bl
    obtain ⟨m, em, ev⟩ := hev t m1 lt_ e1
    rw [(hg t lt_).2]
    rcases ev with ⟨_, c2⟩ | ⟨_, c2, _⟩
    · exact pt m em (c2 bl)
    · exact absurd bl c2

theorem nodeOK_congr {h : Heap} {d : Nat → Nat} {lb : Nat → Option Char} {a : Nat}
    {n n1 : node} (ok : NodeOK h d lb a n) (e1 : n1._char = n._char)
    (e2 : n1.child_false = n.child_false) (e3 : n1.child_true = n.child_true) :
    NodeOK h d lb a n1 := by
  unfold NodeOK at ok ⊢
  rw [e1, e2, e3]
  exact ok

theorem inv_step {h h1 : Heap} {d d1 : Nat → Nat} {lb lb1 : Nat → Option Char}
    (inv : Inv h d lb) (hlen : h.length ≤ h1.length)
    (hg : ∀ x, x < h.length → d1 x = d x ∧ lb1 x = lb x)
    (hev : ∀ b m1, b < h.length → h1[b]? = some m1 → ∃ m, h[b]? = some m ∧ Evolves (lb b) m m1)
    (hnodes : ∀ x n1, h1[x]? = some n1 → h[x]? = some n1 ∨ NodeOK h1 d1 lb1 x n1) :
    Inv h1 d1 lb1 := by
  intro x n1 e1
  rcases hnodes x n1 e1 with e | ok
  · exact nodeOK_transfer (inv x n1 e) (lt_length_of_getElem? e) hlen hg hev
  · exact ok

/-- Replacing the node at `a` keeps the heap well-formed if the new node is a
legal successor of the old one and is itself in order. -/
theorem inv_replace {h : Heap} {d : Nat → Nat} {lb : Nat → Option Char} {a : Nat} {n : node}
    (f : node → node) (inv : Inv h d lb) (hn : h[a]? = some n)
    (ev : Evolves (lb a) n (f n)) (ok : NodeOK h d lb a (f n)) :
    Inv (update h a f) d lb := by
  have ha := lt_length_of_getElem? hn
  have hev : ∀ b m1, b < h.length → (update h a f)[b]? = some m1 →
      ∃ m, h[b]? = some m ∧ Evolves (lb b) m m1 := by
    intro b m1 _ e1
    rw [getElem?_update] at e1
    by_cases q : b = a
    · subst q
      simp only [if_true, hn, Option.map_some'] at e1
      cases e1
      exact ⟨n, hn, ev⟩
    · simp only [q, if_false] at e1
      exact ⟨m1, e1, evolves_refl _ _⟩
  refine inv_step inv (by rw [length_update]) (fun x _ => ⟨rfl, rfl⟩) hev ?_
  intro x n1 e1
  rw [getElem?_update] at e1
  by_cases q : x = a
  · subst q
    simp only [if_true, hn, Option.map_some'] at e1
    cases e1
    exact Or.inr (nodeOK_transfer ok ha (by rw [length_update]) (fun x _ => ⟨rfl, rfl⟩) hev)
  · simp only [q, if_false] at e1
    exact Or.inl e1

/-- Allocating nodes behind the heap keeps it well-formed if the new nodes are
in order; depths and bounds of the new addresses may be chosen. -/
theorem inv_alloc {h : Heap} {d d1 : Nat → Nat} {lb lb1 : Nat → Option Char} (l : List node)
    (inv : Inv h d lb) (hg : ∀ x, x < h.length → d1 x = d x ∧ lb1 x = lb x)
    (hnew : ∀ x n1, h.length ≤ x → (h ++ l)[x]? = some n1 → NodeOK (h ++ l) d1 lb1 x n1) :
    Inv (h ++ l) d1 lb1 := by
  refine inv_step inv (by simp) hg ?_ ?_
  · intro b m1 lb_ e1
    rw [List.getElem?_append_left lb_] at e1
    exact ⟨m1, e1, evolves_refl _ _⟩
  · intro x n1 e1
    rcases Nat.lt_or_ge x h.length with q | q
    · rw [List.getElem?_append_left q] at e1
      exact Or.inl e1
    · exact Or.inr (hnew x n1 q e1)

/-! ## The heaps that `insert_word` builds -/

theorem getElem?_update_self {h : Heap} {a : Nat} {n : node} (f : node → node)
    (hn : h[a]? = some n) : (update h a f)[a]? = some (f n) := by
  rw [getElem?_update, if_pos rfl, hn]; rfl

theorem getElem?_update_ne {h : Heap} {a x : Nat} (f : node → node) (q : x ≠ a) :
    (update h a f)[x]? = h[x]? := by
  rw [getElem?_update, if_neg q]

theorem getElem?_append_two (h : Heap) (n1 n2 : node) (x : Nat) :
    (h ++ [n1, n2])[x]? =
      if x < h.length then h[x]? else if x = h.length then some n1
      else if x = h.length + 1 then some n2 else none := by
  by_cases l : x < h.length
  · rw [if_pos l, List.getElem?_append_left l]
  · rw [if_neg l, List.getElem?_append_right (Nat.le_of_not_lt l)]
    by_cases e : x = h.length
    · rw [if_pos e, e, Nat.sub_self]; rfl
    · rw [if_neg e]
      by_cases e2 : x = h.length + 1
      · rw [if_pos e2, e2, Nat.add_sub_cancel_left]; rfl
      · rw [if_neg e2]
        obtain ⟨k, hk⟩ : ∃ k, x - h.length = k + 2 := ⟨x - h.length - 2, by omega⟩
        rw [hk]; rfl

theorem getElem?_append_three (h : Heap) (n1 n2 n3 : node) (x : Nat) :
    (h ++ [n1, n2, n3])[x]? =
      if x < h.length then h[x]? else if x = h.length then some n1
      else if x = h.length + 1 then some n2
      else if x = h.length + 2 then some n3 else none := by
  by_cases l : x < h.length
  · rw [if_pos l, List.getElem?_append_left l]
  · rw [if_neg l, List.getElem?_append_right (Nat.le_of_not_lt l)]
    by_cases e : x = h.length
    · rw [if_pos e, e, Nat.sub_self]; rfl
    · rw [if_neg e]
      by_cases e2 : x = h.length + 1
      · rw [if_pos e2, e2, Nat.add_sub_cancel_left]; rfl
      · rw [if_neg e2]
        by_cases e3 : x = h.length + 2
        · rw [if_pos e3, e3, Nat.add_sub_cancel_left]; rfl
        · rw [if_neg e3]
          obtain ⟨k, hk⟩ : ∃ k, x - h.length = k + 3 := ⟨x - h.length - 3, by omega⟩
          rw [hk]; rfl

theorem length_materialised (h : Heap) (a : Nat) (c : Char) :
    (materialised h a c).length = h.length + 2 := by
  simp [materialised, make_node, length_update]

theorem getElem?_materialised {h : Heap} {a : Nat} {n : node} (c : Char) (hn : h[a]? = some n)
    (x : Nat) :
    (materialised h a c)[x]? =
      if x = a then
        some { n with _char := c, child_false := some h.length, child_true := some (h.length + 1) }
      else (h ++ [nil_node, nil_node])[x]? := by
  have ha := lt_length_of_getElem? hn
  have e1 : (update h a (fun m => { m with _char := c }))[a]? = some { n with _char := c } :=
    getElem?_update_self _ hn
  have l1 : (update h a (fun m => { m with _char := c })).length = h.length := length_update _ _ _
  have e2 : ((update h a (fun m => { m with _char := c })) ++ [nil_node])[a]? =
      some { n with _char := c } := by
    rw [List.getElem?_append_left (by rw [l1]; exact ha)]; exact e1
  have e3 := getElem?_update_self (fun m => { m with child_false := some h.length }) e2
  have l3 : (update ((update h a (fun m => { m with _char := c })) ++ [nil_node]) a
      (fun m => { m with child_false := some h.length })).length = h.length + 1 := by
    rw [length_update, List.length_append, l1]; rfl
  have e4 : ((update ((update h a (fun m => { m with _char := c })) ++ [nil_node]) a
      (fun m => { m with child_false := some h.length })) ++ [nil_node])[a]? =
      some { n with _char := c, child_false := some h.length } := by
    rw [List.getElem?_append_left (by rw [l3]; omega)]; exact e3
  have e5 := getElem?_update_self (fun m => { m with child_true := some (h.length + 1) }) e4
  by_cases q : x = a
  · subst q
    rw [if_pos rfl]
    simp only [materialised, make_node, l1, l3]
    exact e5
  · rw [if_neg q]
    simp only [materialised, make_node, l1, l3]
    rw [getElem?_update_ne _ q, getElem?_append_two]
    by_cases l : x < h.length + 1
    · rw [List.getElem?_append_left (by rw [l3]; exact l), getElem?_update_ne _ q]
      by_cases l2 : x < h.length
      · rw [if_pos l2, List.getElem?_append_left (by rw [l1]; exact l2), getElem?_update_ne _ q]
      · have e : x = h.length := by omega
        rw [if_neg l2, if_pos e, e]
        rw [List.getElem?_append_right (by rw [l1]), l1, Nat.sub_self]; rfl
    · have l2 : ¬ x < h.length := by omega
      have ne : x ≠ h.length := by omega
      rw [if_neg l2, if_neg ne, List.getElem?_append_right (by rw [l3]; omega), l3]
      by_cases e2 : x = h.length + 1
      · rw [if_pos e2, e2, Nat.sub_self]; rfl
      · rw [if_neg e2]
        obtain ⟨k, hk⟩ : ∃ k, x - (h.length + 1) = k + 1 := ⟨x - (h.length + 1) - 1, by omega⟩
        rw [hk]; rfl

theorem spliced_eq (h : Heap) (a : Nat) (c : Char) :
    spliced h a c = h ++ [node.mk c (some a) (some (h.length + 2)) [], nil_node, nil_node] := by
  have e : (h ++ [node.mk c (some (h.length + 1)) (some (h.length + 2)) [],
      nil_node, nil_node])[h.length]? =
      some (node.mk c (some (h.length + 1)) (some (h.length + 2)) []) := by
    rw [getElem?_append_three, if_neg (Nat.lt_irrefl _), if_pos rfl]
  simp only [spliced, make_node_char, update, e]
  rw [List.set_append_right _ _ (le_refl _), Nat.sub_self]
  rfl

/-! ## The cases of `insert_word` -/

theorem lt_length_of_key {key : string} {curr : Nat} {c : Char} (hc : key[curr]? = some c) :
    curr < key.length := by
  rcases Nat.lt_or_ge curr key.length with l | l
  · exact l
  · rw [List.getElem?_eq_none l] at hc; cases hc

theorem insert_word_done (fuel : Nat) {h : Heap} {a : Nat} {n : node} (w key : string)
    (hn : h[a]? = some n) :
    insert_word (fuel + 1) h (some a) w key key.length =
      .ok (update h a (fun m => { m with _words := m._words ++ [w] }), some a) := by
  simp only [insert_word, hn, if_true]

theorem insert_word_nil (fuel : Nat) {h : Heap} {a curr : Nat} {n : node} {c : Char}
    (w : string) {key : string} (hn : h[a]? = some n) (hc : key[curr]? = some c)
    (bl : Blank n) :
    insert_word (fuel + 1) h (some a) w key curr =
      match insert_word fuel (materialised h a c) (some (h.length + 1)) w key (curr + 1) with
      | .fault e => .fault e
      | .ok (h6, r) => .ok (update h6 a (fun m => { m with child_true := r }), some a) := by
  have ne : curr ≠ key.length := Nat.ne_of_lt (lt_length_of_key hc)
  have l3 : (update ((update h a (fun m => { m with _char := c })) ++ [nil_node]) a
      (fun m => { m with child_false := some h.length })).length = h.length + 1 := by
    rw [length_update, List.length_append, length_update]; rfl
  simp only [insert_word, hn, ne, if_false, hc, bl.1, bl.2.1, bl.2.2, if_true, and_self,
    materialised, make_node, length_update, l3]

theorem insert_word_nil_assert (fuel : Nat) {h : Heap} {a curr : Nat} {n : node} {c : Char}
    (w : string) {key : string} (hn : h[a]? = some n) (hc : key[curr]? = some c)
    (hnil : n._char = NIL) (nb : ¬ Blank n) :
    insert_word (fuel + 1) h (some a) w key curr = .fault .assertion := by
  have ne : curr ≠ key.length := Nat.ne_of_lt (lt_length_of_key hc)
  have nb2 : ¬ (n.child_false = none ∧ n.child_true = none) := fun q => nb ⟨hnil, q⟩
  simp only [insert_word, hn, ne, if_false, hc, hnil, if_true, nb2]

theorem insert_word_splice (fuel : Nat) {h : Heap} {a curr : Nat} {n : node} {c : Char}
    (w : string) {key : string} (hn : h[a]? = some n) (hc : key[curr]? = some c)
    (hnil : n._char ≠ NIL) (hlt : c < n._char) :
    insert_word (fuel + 1) h (some a) w key curr =
      match insert_word fuel (spliced h a c) n.child_true w key (curr + 1) with
      | .fault e => .fault e
      | .ok (h3, r) =>
        .ok (update h3 h.length (fun m => { m with child_true := r }), some h.length) := by
  have ne : curr ≠ key.length := Nat.ne_of_lt (lt_length_of_key hc)
  simp only [insert_word, hn, ne, if_false, hc, hnil, hlt, if_true, spliced, make_node_char]

theorem insert_word_greater (fuel : Nat) {h : Heap} {a curr : Nat} {n : node} {c : Char}
    (w : string) {key : string} (hn : h[a]? = some n) (hc : key[curr]? = some c)
    (hnil : n._char ≠ NIL) (hlt : ¬ c < n._char) (hgt : n._char < c) :
    insert_word (fuel + 1) h (some a) w key curr =
      match insert_word fuel h n.child_false w key curr with
      | .fault e => .fault e
      | .ok (h1, r) => .ok (update h1 a (fun m => { m with child_false := r }), some a) := by
  have ne : curr ≠ key.length := Nat.ne_of_lt (lt_length_of_key hc)
  simp only [insert_word, hn, ne, if_false, hc, hnil, hlt, hgt, if_true]

theorem insert_word_equal (fuel : Nat) {h : Heap} {a curr : Nat} {n : node} {c : Char}
    (w : string) {key : string} (hn : h[a]? = some n) (hc : key[curr]? = some c)
    (hnil : n._char ≠ NIL) (hlt : ¬ c < n._char) (hgt : ¬ n._char < c) :
    insert_word (fuel + 1) h (some a) w key curr =
      match insert_word fuel h n.child_true w key (curr + 1) with
      | .fault e => .fault e
      | .ok (h1, r) => .ok (update h1 a (fun m => { m with child_true := r }), some a) := by
  have ne : curr ≠ key.length := Nat.ne_of_lt (lt_length_of_key hc)
  simp only [insert_word, hn, ne, if_false, hc, hnil, hlt, hgt]

/-! ## Single writes that keep a heap well-formed -/

theorem blank_nil_node : Blank nil_node := ⟨rfl, rfl, rfl⟩

theorem nodeOK_nil_node (h : Heap) (d : Nat → Nat) (lb : Nat → Option Char) (x : Nat) :
    NodeOK h d lb x nil_node :=
  ⟨fun b e => (by cases e), fun b e => (by cases e), fun q => absurd rfl q⟩

theorem inv_add_word {h : Heap} {d : Nat → Nat} {lb : Nat → Option Char} (a : Nat) (w : string)
    (inv : Inv h d lb) :
    Inv (update h a (fun m => { m with _words := m._words ++ [w] })) d lb := by
  cases hn : h[a]? with
  | none => simp only [update, hn]; exact inv
  | some n =>
    refine inv_replace _ inv hn (Or.inl ⟨rfl, fun b => b⟩) ?_
    exact nodeOK_congr (inv a n hn) rfl rfl rfl

theorem inv_set_true {h : Heap} {d : Nat → Nat} {lb : Nat → Option Char} {p a1 : Nat}
    {np : node} (inv : Inv h d lb) (hp : h[p]? = some np) (l1 : a1 < h.length)
    (hd : np._char ≠ NIL → d a1 = d p + 1)
    (hb : ∀ m, h[a1]? = some m → Blank m → lb a1 = none) :
    Inv (update h p (fun m => { m with child_true := some a1 })) d lb := by
  refine inv_replace _ inv hp (Or.inl ⟨rfl, fun b => (by cases b.2.2)⟩) ?_
  obtain ⟨cf, _, rest⟩ := inv p np hp
  refine ⟨cf, fun b e => (by cases e; exact l1), ?_⟩
  intro hnil
  exact ⟨(rest hnil).1, ⟨a1, rfl, hd hnil, hb⟩⟩

theorem inv_set_false {h : Heap} {d : Nat → Nat} {lb : Nat → Option Char} {p a1 : Nat}
    {np : node} (inv : Inv h d lb) (hp : h[p]? = some np) (l1 : a1 < h.length)
    (hd : np._char ≠ NIL → d a1 = d p)
    (hb : np._char ≠ NIL → ∀ m, h[a1]? = some m →
      (m._char ≠ NIL → np._char < m._char) ∧ (Blank m → lb a1 = some np._char)) :
    Inv (update h p (fun m => { m with child_false := some a1 })) d lb := by
  refine inv_replace _ inv hp (Or.inl ⟨rfl, fun b => (by cases b.2.1)⟩) ?_
  obtain ⟨_, ct, rest⟩ := inv p np hp
  refine ⟨fun b e => (by cases e; exact l1), ct, ?_⟩
  intro hnil
  exact ⟨⟨a1, rfl, hd hnil, hb hnil⟩, (rest hnil).2⟩

theorem inv_materialised {h : Heap} {d : Nat → Nat} {lb : Nat → Option Char} {a : Nat}
    {n : node} (c : Char) (inv : Inv h d lb) (hn : h[a]? = some n) (bl : Blank n)
    (hb : ∀ x, lb a = some x → x < c) :
    Inv (materialised h a c)
      (fun x => if x = h.length then d a else if x = h.length + 1 then d a + 1 else d x)
      (fun x => if x = h.length then some c else if x = h.length + 1 then none else lb x) := by
  have ha := lt_length_of_getElem? hn
  have hev : ∀ b m1, b < h.length → (materialised h a c)[b]? = some m1 →
      ∃ m, h[b]? = some m ∧ Evolves (lb b) m m1 := by
    intro b m1 l e1
    rw [getElem?_materialised c hn] at e1
    by_cases q : b = a
    · subst q
      rw [if_pos rfl] at e1
      cases e1
      exact ⟨n, hn, Or.inr ⟨bl, fun q => (by cases q.2.1), hb⟩⟩
    · rw [if_neg q, getElem?_append_two, if_pos l] at e1
      exact ⟨m1, e1, evolves_refl _ _⟩
  have hg : ∀ x, x < h.length →
      (if x = h.length then d a else if x = h.length + 1 then d a + 1 else d x) = d x ∧
      (if x = h.length then some c else if x = h.length + 1 then none else lb x) = lb x := by
    intro x l
    rw [if_neg (by omega), if_neg (by omega), if_neg (by omega), if_neg (by omega)]
    exact ⟨rfl, rfl⟩
  refine inv_step inv (by rw [length_materialised]; omega) hg hev ?_
  intro x n1 e1
  rw [getElem?_materialised c hn] at e1
  by_cases q : x = a
  · subst q
    rw [if_pos rfl] at e1
    cases e1
    right
    refine ⟨fun b e => (by cases e; rw [length_materialised]; omega),
      fun b e => (by cases e; rw [length_materialised]; omega), ?_⟩
    intro _
    refine ⟨⟨h.length, rfl, ?_, ?_⟩, ⟨h.length + 1, rfl, ?_, ?_⟩⟩
    · beta_reduce
      rw [if_pos rfl, (hg x ha).1]
    · intro m em
      rw [getElem?_materialised c hn, if_neg (by omega), getElem?_append_two,
        if_neg (Nat.lt_irrefl _), if_pos rfl] at em
      cases em
      exact ⟨fun q => absurd rfl q, fun _ => (by beta_reduce; rw [if_pos rfl])⟩
    · beta_reduce
      rw [if_neg (by omega), if_pos rfl, (hg x ha).1]
    · intro m _ _
      beta_reduce
      rw [if_neg (by omega), if_pos rfl]
  · rw [if_neg q, getElem?_append_two] at e1
    by_cases l : x < h.length
    · rw [if_pos l] at e1
      exact Or.inl e1
    · rw [if_neg l] at e1
      right
      by_cases e : x = h.length
      · rw [if_pos e] at e1; cases e1; exact nodeOK_nil_node _ _ _ _
      · rw [if_neg e] at e1
        by_cases e2 : x = h.length + 1
        · rw [if_pos e2] at e1; cases e1; exact nodeOK_nil_node _ _ _ _
        · rw [if_neg e2] at e1; cases e1

theorem inv_spliced {h : Heap} {d : Nat → Nat} {lb : Nat → Option Char} {a : Nat}
    {n : node} {c : Char} (inv : Inv h d lb) (hn : h[a]? = some n) (hnil : n._char ≠ NIL)
    (hlt : c < n._char) :
    Inv (spliced h a c)
      (fun x => if x = h.length then d a else if x = h.length + 2 then d a + 1 else d x)
      (fun x => if x = h.length + 2 then none else lb x) := by
  have ha := lt_length_of_getElem? hn
  have hg : ∀ x, x < h.length →
      (if x = h.length then d a else if x = h.length + 2 then d a + 1 else d x) = d x ∧
      (if x = h.length + 2 then none else lb x) = lb x := by
    intro x l
    rw [if_neg (by omega), if_neg (by omega), if_neg (by omega)]
    exact ⟨rfl, rfl⟩
  rw [spliced_eq]
  refine inv_alloc _ inv hg ?_
  intro x n1 l e1
  rw [getElem?_append_three, if_neg (by omega)] at e1
  by_cases e : x = h.length
  · rw [if_pos e] at e1
    cases e1
    subst e
    refine ⟨fun b e => (by cases e; simp; omega), fun b e => (by cases e; simp), ?_⟩
    intro _
    refine ⟨⟨a, rfl, ?_, ?_⟩, ⟨h.length + 2, rfl, ?_, ?_⟩⟩
    · beta_reduce
      rw [(hg a ha).1, if_pos rfl]
    · intro m em
      rw [List.getElem?_append_left ha, hn] at em
      cases em
      exact ⟨fun _ => hlt, fun q => absurd q.1 hnil⟩
    · beta_reduce
      rw [if_neg (by omega), if_pos rfl, if_pos rfl]
    · intro m _ _
      beta_reduce
      rw [if_pos rfl]
  · rw [if_neg e] at e1
    by_cases e2 : x = h.length + 1
    · rw [if_pos e2] at e1; cases e1; exact nodeOK_nil_node _ _ _ _
    · rw [if_neg e2] at e1
      by_cases e3 : x = h.length + 2
      · rw [if_pos e3] at e1; cases e1; exact nodeOK_nil_node _ _ _ _
      · rw [if_neg e3] at e1; cases e1

/-! ## `insert_word` keeps the heap well-formed -/

/-- The step shared by the three cases that recurse into a present child: the
call on the child `t` of the node at `p`, followed by the write of the
returned pointer into the present slot of `p`. -/
theorem insert_word_true_step {w key : string} {fuel : Nat} (ih : InsertSpec w key fuel)
    {H Hout : Heap} {dH : Nat → Nat} {lbH : Nat → Option Char} {p t curr : Nat}
    {np nt : node} {r : ptr}
    (invH : Inv H dH lbH) (hp : H[p]? = some np) (ht : H[t]? = some nt)
    (hdt : dH t = dH p + 1) (hlbt : Blank nt → lbH t = none)
    (hr : insert_word fuel H (some t) w key curr = .ok (Hout, r)) :
    ∃ d1 lb1 a1, r = some a1 ∧
      Inv (update Hout p (fun m => { m with child_true := some a1 })) d1 lb1 ∧
      H.length ≤ Hout.length ∧
      (update Hout p (fun m => { m with child_true := some a1 }))[p]? =
        some { np with child_true := some a1 } ∧
      (∀ x, x < H.length → d1 x = dH x ∧ lb1 x = lbH x) ∧
      (∀ x nx, H[x]? = some nx → x ≠ p → dH x ≤ dH p →
        (update Hout p (fun m => { m with child_true := some a1 }))[x]? = some nx) := by
  have pre : Blank nt → ∀ c x, key[curr]? = some c → lbH t = some x → x < c := by
    intro bl c x _ q
    rw [hlbt bl] at q
    cases q
  obtain ⟨d1, lb1, a1, n1, er, inv1, len1, e1, g1, dr, post1, frame1⟩ :=
    ih H t curr dH lbH nt Hout r invH ht pre hr
  have lp := lt_length_of_getElem? hp
  have lt_ := lt_length_of_getElem? ht
  have pt : p ≠ t := by
    intro q
    rw [q] at hdt
    omega
  have hop : Hout[p]? = some np := frame1 p np hp pt (Or.inl (by omega))
  refine ⟨d1, lb1, a1, er, ?_, len1, getElem?_update_self _ hop, g1, ?_⟩
  · refine inv_set_true inv1 hop (lt_length_of_getElem? e1) ?_ ?_
    · intro _
      rw [dr, (g1 p lp).1, hdt]
    · intro m em bl
      rw [e1] at em
      cases em
      rcases post1 with ⟨_, q2, q3, q4, q5⟩ | ⟨_, _, q, _⟩
      · subst q2
        rw [(g1 a1 lt_).2]
        exact hlbt ⟨by rw [← q3]; exact bl.1, by rw [← q4]; exact bl.2.1,
          by rw [← q5]; exact bl.2.2⟩
      · exact absurd bl q
  · intro x nx ex ne le
    rw [getElem?_update_ne _ ne]
    have xt : x ≠ t := by
      intro q
      rw [q] at le
      omega
    exact frame1 x nx ex xt (Or.inl (by omega))

theorem insert_word_inv (w key : string) : ∀ fuel, InsertSpec w key fuel := by
  intro fuel
  induction fuel with
  | zero =>
    intro h a curr d lb n h1 r _ _ _ e
    simp [insert_word] at e
  | succ fuel ih =>
    intro h a curr d lb n h1 r inv hn pre e
    have ha := lt_length_of_getElem? hn
    by_cases hend : curr = key.length
    · subst hend
      rw [insert_word_done fuel w key hn] at e
      cases e
      refine ⟨d, lb, a, _, rfl, inv_add_word a w inv, by rw [length_update],
        getElem?_update_self _ hn, fun x _ => ⟨rfl, rfl⟩, rfl,
        Or.inl ⟨rfl, rfl, rfl, rfl, rfl⟩, ?_⟩
      intro x nx ex ne _
      rw [getElem?_update_ne _ ne]
      exact ex
    · cases hc : key[curr]? with
      | none => simp [insert_word, hn, hend, hc] at e
      | some c =>
        by_cases hnil : n._char = NIL
        · by_cases bl : Blank n
          · -- the placeholder is given the character `c`
            rw [insert_word_nil fuel w hn hc bl] at e
            cases hr : insert_word fuel (materialised h a c) (some (h.length + 1)) w key
              (curr + 1) with
            | fault x => rw [hr] at e; cases e
            | ok res =>
              obtain ⟨h6, r6⟩ := res
              rw [hr] at e
              have invM := inv_materialised c inv hn bl (fun x q => pre bl c x hc q)
              have hMa := getElem?_materialised c hn a
              rw [if_pos rfl] at hMa
              have hMt := getElem?_materialised c hn (h.length + 1)
              rw [if_neg (by omega), getElem?_append_two, if_neg (by omega),
                if_neg (by omega), if_pos rfl] at hMt
              obtain ⟨d1, lb1, a1, er, invF, lenF, eF, gF, frameF⟩ :=
                insert_word_true_step ih invM hMa hMt
                  (by rw [if_neg (by omega), if_pos rfl, if_neg (by omega), if_neg (by omega)])
                  (fun _ => by rw [if_neg (by omega), if_pos rfl]) hr
              subst er
              cases e
              have gA : ∀ x, x < h.length → d1 x = d x ∧ lb1 x = lb x := by
                intro x l
                have q := gF x (by rw [length_materialised]; omega)
                beta_reduce at q
                rw [if_neg (by omega), if_neg (by omega), if_neg (by omega),
                  if_neg (by omega)] at q
                exact q
              refine ⟨d1, lb1, a, _, rfl, invF, ?_, eF, gA, (gA a ha).1, ?_, ?_⟩
              · rw [length_update]
                rw [length_materialised] at lenF
                omega
              · exact Or.inr ⟨c, rfl, fun q => (by cases q.2.1), Or.inl rfl⟩
              · intro x nx ex ne cond
                have lx := lt_length_of_getElem? ex
                have exM : (materialised h a c)[x]? = some nx := by
                  rw [getElem?_materialised c hn, if_neg ne, getElem?_append_two, if_pos lx]
                  exact ex
                refine frameF x nx exM ne ?_
                rw [if_neg (by omega), if_neg (by omega), if_neg (by omega), if_neg (by omega)]
                rcases cond with q | q
                · omega
                · omega
          · rw [insert_word_nil_assert fuel w hn hc hnil bl] at e
            cases e
        · obtain ⟨cf, ct, rest⟩ := inv a n hn
          obtain ⟨⟨b, eb, db, pb⟩, ⟨t, et, dt, pt⟩⟩ := rest hnil
          have lb_ := cf b eb
          have lt_ := ct t et
          obtain ⟨mb, hmb⟩ := getElem?_of_lt_length lb_
          obtain ⟨mt, hmt⟩ := getElem?_of_lt_length lt_
          by_cases hlt : c < n._char
          · -- a new node for `c` is spliced in front of the node at `a`
            rw [insert_word_splice fuel w hn hc hnil hlt, et] at e
            cases hr : insert_word fuel (spliced h a c) (some t) w key (curr + 1) with
            | fault x => rw [hr] at e; cases e
            | ok res =>
              obtain ⟨h3, r3⟩ := res
              rw [hr] at e
              have invS := inv_spliced inv hn hnil hlt
              have hSp : (spliced h a c)[h.length]? =
                  some (node.mk c (some a) (some (h.length + 2)) []) := by
                rw [spliced_eq, getElem?_append_three, if_neg (Nat.lt_irrefl _), if_pos rfl]
              have hSt : (spliced h a c)[t]? = some mt := by
                rw [spliced_eq, List.getElem?_append_left lt_]
                exact hmt
              have lenS : (spliced h a c).length = h.length + 3 := by
                rw [spliced_eq]; simp
              obtain ⟨d1, lb1, a1, er, invF, lenF, eF, gF, frameF⟩ :=
                insert_word_true_step ih invS hSp hSt
                  (by rw [if_neg (by omega), if_neg (by omega), if_pos rfl, dt])
                  (fun q => by rw [if_neg (by omega)]; exact pt mt hmt q) hr
              subst er
              cases e
              have gA : ∀ x, x < h.length → d1 x = d x ∧ lb1 x = lb x := by
                intro x l
                have q := gF x (by rw [lenS]; omega)
                beta_reduce at q
                rw [if_neg (by omega), if_neg (by omega), if_neg (by omega)] at q
                exact q
              have gN := (gF h.length (by rw [lenS]; omega)).1
              beta_reduce at gN
              rw [if_pos rfl] at gN
              refine ⟨d1, lb1, h.length, _, rfl, invF, ?_, eF, gA, gN, ?_, ?_⟩
              · rw [length_update]
                rw [lenS] at lenF
                omega
              · exact Or.inr ⟨c, rfl, fun q => (by cases q.2.1), Or.inl rfl⟩
              · intro x nx ex ne cond
                have lx := lt_length_of_getElem? ex
                have exS : (spliced h a c)[x]? = some nx := by
                  rw [spliced_eq, List.getElem?_append_left lx]
                  exact ex
                refine frameF x nx exS (by omega) ?_
                rw [if_neg (by omega), if_neg (by omega), if_pos rfl]
                rcases cond with q | q
                · omega
                · omega
          · by_cases hgt : n._char < c
            · -- the walk follows the absent child with the same cursor
              rw [insert_word_greater fuel w hn hc hnil hlt hgt, eb] at e
              cases hr : insert_word fuel h (some b) w key curr with
              | fault x => rw [hr] at e; cases e
              | ok res =>
                obtain ⟨h2, r2⟩ := res
                rw [hr] at e
                have preb : Blank mb → ∀ c1 x, key[curr]? = some c1 → lb b = some x → x < c1 := by
                  intro blb c1 x q1 q2
                  rw [hc] at q1
                  cases q1
                  rw [(pb mb hmb).2 blb] at q2
                  cases q2
                  exact hgt
                obtain ⟨d1, lb1, a1, n1, er, inv1, len1, e1, g1, dr, post1, frame1⟩ :=
                  ih h b curr d lb mb h2 r2 inv hmb preb hr
                subst er
                cases e
                have ab : a ≠ b := by
                  intro q
                  subst q
                  rw [hn] at hmb
                  cases hmb
                  exact lt_irrefl _ ((pb n hn).1 hnil)
                have h2a : h2[a]? = some n :=
                  frame1 a n hn ab (Or.inr ⟨db.symm, hnil, fun q => (pb mb hmb).1 q⟩)
                have l1 := lt_length_of_getElem? e1
                have invF : Inv (update h2 a (fun m => { m with child_false := some a1 }))
                    d1 lb1 := by
                  refine inv_set_false inv1 h2a l1 ?_ ?_
                  · intro _
                    rw [dr, (g1 a ha).1, db]
                  · intro _ m em
                    rw [e1] at em
                    cases em
                    rcases post1 with ⟨q, _⟩ | ⟨c1, q1, q2, q3⟩
                    · exact absurd q hend
                    · refine ⟨fun _ => ?_, fun q => absurd q q2⟩
                      rcases q3 with q3 | ⟨_, q4, q5⟩
                      · rw [hc] at q1
                        cases q1
                        rw [q3]
                        exact hgt
                      · rw [q4]
                        exact (pb mb hmb).1 q5
                refine ⟨d1, lb1, a, _, rfl, invF, by rw [length_update]; exact len1,
                  getElem?_update_self _ h2a, g1, (g1 a ha).1, ?_, ?_⟩
                · exact Or.inr ⟨c, rfl, fun q => (by cases q.2.1), Or.inr ⟨rfl, rfl, hnil⟩⟩
                · intro x nx ex ne cond
                  rw [getElem?_update_ne _ ne]
                  rcases cond with q | ⟨q1, q2, q3⟩
                  · exact frame1 x nx ex (by intro q9; subst q9; omega) (Or.inl (by omega))
                  · have xb : x ≠ b := by
                      intro q9
                      subst q9
                      rw [hmb] at ex
                      cases ex
                      exact lt_irrefl _ (lt_trans (q3 hnil) ((pb mb hmb).1 q2))
                    exact frame1 x nx ex xb
                      (Or.inr ⟨by omega, q2, fun q => lt_trans (q3 hnil) ((pb mb hmb).1 q)⟩)
            · -- the walk follows the present child with the cursor advanced
              rw [insert_word_equal fuel w hn hc hnil hlt hgt, et] at e
              cases hr : insert_word fuel h (some t) w key (curr + 1) with
              | fault x => rw [hr] at e; cases e
              | ok res =>
                obtain ⟨h2, r2⟩ := res
                rw [hr] at e
                obtain ⟨d1, lb1, a1, er, invF, lenF, eF, gF, frameF⟩ :=
                  insert_word_true_step ih inv hn hmt dt (fun q => pt mt hmt q) hr
                subst er
                cases e
                refine ⟨d1, lb1, a, _, rfl, invF, by rw [length_update]; exact lenF, eF, gF,
                  (gF a ha).1, ?_, ?_⟩
                · exact Or.inr ⟨c, rfl, fun q => (by cases q.2.2), Or.inr ⟨rfl, rfl, hnil⟩⟩
                · intro x nx ex ne cond
                  refine frameF x nx ex ne ?_
                  rcases cond with q | q
                  · omega
                  · omega

/-! ## Reachable states are well-formed -/

theorem stateOK_empty : StateOK empty := by
  refine ⟨fun _ => 0, fun _ => none, 0, ?_, rfl, by decide, fun _ _ _ => rfl⟩
  intro a n e
  have e2 : ([nil_node] : Heap)[a]? = some n := e
  cases a with
  | zero => cases e2; exact nodeOK_nil_node _ _ _ _
  | succ k => cases e2

theorem stateOK_erase {s : Heap × anatree} (ok : StateOK s) : StateOK (erase s.1 s.2) := by
  obtain ⟨d, lb, r, inv, _, _, _⟩ := ok
  refine ⟨d, fun x => if x = s.1.length then none else lb x, s.1.length, ?_, rfl, ?_, ?_⟩
  · refine inv_alloc [nil_node] inv (fun x l => ⟨rfl, by rw [if_neg (by omega)]⟩) ?_
    intro x n1 l e1
    rcases Nat.eq_or_lt_of_le l with q | q
    · subst q
      rw [List.getElem?_concat_length] at e1
      cases e1
      exact nodeOK_nil_node _ _ _ _
    · rw [List.getElem?_eq_none (by simp; omega)] at e1
      cases e1
  · simp [erase, make_node]
  · intro m _ _
    beta_reduce
    rw [if_pos rfl]

theorem stateOK_insert {s s1 : Heap × anatree} {w : string} (ok : StateOK s)
    (e : insert s.1 s.2 w = .ok s1) : StateOK s1 := by
  obtain ⟨d, lb, r, inv, er, lr, hb⟩ := ok
  obtain ⟨n, hn⟩ := getElem?_of_lt_length lr
  simp only [insert, er] at e
  cases hr : insert_word (fuel_for s.1 (sorted_string w)) s.1 (some r) w (sorted_string w) 0 with
  | fault x => rw [hr] at e; cases e
  | ok res =>
    obtain ⟨h1, r1⟩ := res
    rw [hr] at e
    cases e
    have pre : Blank n → ∀ c x, (sorted_string w)[0]? = some c → lb r = some x → x < c := by
      intro bl c x _ q
      rw [hb n hn bl] at q
      cases q
    obtain ⟨d1, lb1, a1, n1, e1, inv1, _, en1, g1, _, post1, _⟩ :=
      insert_word_inv w (sorted_string w) _ s.1 r 0 d lb n h1 r1 inv hn pre hr
    subst e1
    refine ⟨d1, lb1, a1, inv1, rfl, lt_length_of_getElem? en1, ?_⟩
    intro m em bl
    have em2 : h1[a1]? = some m := em
    rw [en1] at em2
    cases em2
    rcases post1 with ⟨_, q2, q3, q4, q5⟩ | ⟨_, _, q, _⟩
    · subst q2
      rw [(g1 a1 lr).2]
      exact hb n hn ⟨by rw [← q3]; exact bl.1, by rw [← q4]; exact bl.2.1,
        by rw [← q5]; exact bl.2.2⟩
    · exact absurd bl q

theorem stateOK_of_reachable {s : Heap × anatree} (hs : Reachable s) : StateOK s := by
  induction hs with
  | empty => exact stateOK_empty
  | insert s s1 w _ e ih => exact stateOK_insert ih e
  | erase s _ ih => exact stateOK_erase ih

theorem wellFormed_of_reachable {s : Heap × anatree} (hs : Reachable s) : WellFormed s.1 := by
  obtain ⟨d, lb, _, inv, _⟩ := stateOK_of_reachable hs
  exact ⟨d, lb, inv⟩

/-! ## Ranks: no walk comes back to a node -/

theorem ranked_of_inv {h : Heap} {d : Nat → Nat} {lb : Nat → Option Char} (inv : Inv h d lb) :
    Ranked h (rank_of h d) := by
  intro a n hn hnil
  obtain ⟨cf, ct, rest⟩ := inv a n hn
  obtain ⟨⟨b, eb, db, pb⟩, ⟨t, et, dt, _⟩⟩ := rest hnil
  have lb_ := cf b eb
  have lt_ := ct t et
  obtain ⟨mb, hmb⟩ := getElem?_of_lt_length lb_
  obtain ⟨mt, hmt⟩ := getElem?_of_lt_length lt_
  have bound : n._char.toNat < 4294967296 := n._char.val.val.isLt
  have ra : rank_of h d a = d a * 4294967297 + n._char.toNat := by
    simp only [rank_of, hn, hnil, if_false]
  refine ⟨⟨b, eb, lb_, ?_⟩, ⟨t, et, lt_, ?_⟩⟩
  · rw [ra]
    simp only [rank_of, hmb, db]
    by_cases q : mb._char = NIL
    · rw [if_pos q]; omega
    · rw [if_neg q]
      have lt2 : n._char.toNat < mb._char.toNat := (pb mb hmb).1 q
      omega
  · rw [ra]
    simp only [rank_of, hmt, dt]
    have e : (d a + 1) * 4294967297 = d a * 4294967297 + 4294967297 := by ring
    rw [e]
    omega

theorem above_lt {h : Heap} {rank : Nat → Nat} {a b : Nat} (lt : rank a < rank b)
    (lb_ : b < h.length) : above h rank b < above h rank a := by
  unfold above
  apply Finset.card_lt_card
  rw [Finset.ssubset_iff_of_subset]
  · exact ⟨b, by simp [lb_, lt], by simp⟩
  · intro x hx
    simp only [Finset.mem_filter, Finset.mem_range] at hx ⊢
    exact ⟨hx.1, lt_trans lt hx.2⟩

theorem above_lt_length {h : Heap} (rank : Nat → Nat) {a : Nat} (la : a < h.length) :
    above h rank a < h.length := by
  unfold above
  have e : (Finset.range h.length).card = h.length := Finset.card_range _
  have lt : ((Finset.range h.length).filter (fun x => rank a < rank x)).card <
      (Finset.range h.length).card := by
    apply Finset.card_lt_card
    rw [Finset.filter_ssubset]
    exact ⟨a, by simp [la], lt_irrefl _⟩
  omega

/-! ## The cases of `get_words` -/

theorem insert_word_blank (w key : string) :
    ∀ (fuel : Nat) (h : Heap) (a curr : Nat) (n : node),
      h[a]? = some n → Blank n → curr ≤ key.length →
      (∃ h1, insert_word fuel h (some a) w key curr = .ok (h1, some a)) ∨
      (insert_word fuel h (some a) w key curr = .fault .out_of_fuel ∧
        fuel < key.length - curr + 1) := by
  intro fuel
  induction fuel with
  | zero =>
    intro h a curr n _ _ _
    exact Or.inr ⟨rfl, by omega⟩
  | succ fuel ih =>
    intro h a curr n hn bl lc
    by_cases hend : curr = key.length
    · subst hend
      rw [insert_word_done fuel w key hn]
      exact Or.inl ⟨_, rfl⟩
    · have lc2 : curr < key.length := lt_of_le_of_ne lc hend
      obtain ⟨c, hc⟩ : ∃ c, key[curr]? = some c := ⟨key[curr], List.getElem?_eq_getElem lc2⟩
      rw [insert_word_nil fuel w hn hc bl]
      have ha := lt_length_of_getElem? hn
      have hMt := getElem?_materialised c hn (h.length + 1)
      rw [if_neg (by omega), getElem?_append_two, if_neg (by omega),
        if_neg (by omega), if_pos rfl] at hMt
      rcases ih (materialised h a c) (h.length + 1) (curr + 1) nil_node hMt blank_nil_node lc2
        with ⟨h1, e1⟩ | ⟨e1, bd⟩
      · rw [e1]
        exact Or.inl ⟨_, rfl⟩
      · rw [e1]
        exact Or.inr ⟨rfl, by omega⟩

theorem insert_word_terminates {h0 : Heap} {rank : Nat → Nat} (hr : Ranked h0 rank)
    (w key : string) :
    ∀ (fuel : Nat) (h : Heap) (a curr : Nat), h0.length ≤ h.length →
      (∀ x, x < h0.length → h[x]? = h0[x]?) → a < h0.length → curr ≤ key.length →
      insert_word fuel h (some a) w key curr ≠ .fault .null_deref ∧
      (above h0 rank a + (key.length - curr) + 1 ≤ fuel →
        insert_word fuel h (some a) w key curr ≠ .fault .out_of_fuel) := by
  intro fuel
  induction fuel with
  | zero =>
    intro h a curr _ _ _ _
    exact ⟨fun q => (by cases q), fun q => by omega⟩
  | succ fuel ih =>
    intro h a curr hl pre la lc
    obtain ⟨n, hn0⟩ := getElem?_of_lt_length la
    have hn : h[a]? = some n := by rw [pre a la]; exact hn0
    by_cases hend : curr = key.length
    · subst hend
      rw [insert_word_done fuel w key hn]
      exact ⟨fun q => (by cases q), fun _ q => by cases q⟩
    · have lc2 : curr < key.length := lt_of_le_of_ne lc hend
      obtain ⟨c, hc⟩ : ∃ c, key[curr]? = some c := ⟨key[curr], List.getElem?_eq_getElem lc2⟩
      by_cases hnil : n._char = NIL
      · by_cases bl : Blank n
        · rcases insert_word_blank w key (fuel + 1) h a curr n hn bl lc with ⟨h1, e1⟩ | ⟨e1, bd⟩
          · rw [e1]
            exact ⟨fun q => (by cases q), fun _ q => by cases q⟩
          · rw [e1]
            exact ⟨fun q => (by cases q), fun q => by omega⟩
        · rw [insert_word_nil_assert fuel w hn hc hnil bl]
          exact ⟨fun q => (by cases q), fun _ q => by cases q⟩
      · obtain ⟨⟨b, eb, lb_, rb⟩, ⟨t, et, lt_, rt⟩⟩ := hr a n hn0 hnil
        have ab := above_lt rb lb_
        have at_ := above_lt rt lt_
        by_cases hlt : c < n._char
        · rw [insert_word_splice fuel w hn hc hnil hlt, et]
          have pre2 : ∀ x, x < h0.length → (spliced h a c)[x]? = h0[x]? := by
            intro x lx
            rw [spliced_eq, List.getElem?_append_left (by omega)]
            exact pre x lx
          have hl2 : h0.length ≤ (spliced h a c).length := by
            rw [spliced_eq]; simp; omega
          obtain ⟨i1, i2⟩ := ih (spliced h a c) t (curr + 1) hl2 pre2 lt_ lc2
          cases hres : insert_word fuel (spliced h a c) (some t) w key (curr + 1) with
          | ok res => exact ⟨fun q => (by cases q), fun _ q => by cases q⟩
          | fault x =>
            rw [hres] at i1 i2
            exact ⟨fun q => (by cases q; exact i1 rfl),
              fun bd q => by cases q; exact i2 (by omega) rfl⟩
        · by_cases hgt : n._char < c
          · rw [insert_word_greater fuel w hn hc hnil hlt hgt, eb]
            obtain ⟨i1, i2⟩ := ih h b curr hl pre lb_ lc
            cases hres : insert_word fuel h (some b) w key curr with
            | ok res => exact ⟨fun q => (by cases q), fun _ q => by cases q⟩
            | fault x =>
              rw [hres] at i1 i2
              exact ⟨fun q => (by cases q; exact i1 rfl),
                fun bd q => by cases q; exact i2 (by omega) rfl⟩
          · rw [insert_word_equal fuel w hn hc hnil hlt hgt, et]
            obtain ⟨i1, i2⟩ := ih h t (curr + 1) hl pre lt_ lc2
            cases hres : insert_word fuel h (some t) w key (curr + 1) with
            | ok res => exact ⟨fun q => (by cases q), fun _ q => by cases q⟩
            | fault x =>
              rw [hres] at i1 i2
              exact ⟨fun q => (by cases q; exact i1 rfl),
                fun bd q => by cases q; exact i2 (by omega) rfl⟩

/-! ## States used as examples -/

theorem reachable_state_b : Reachable state_b :=
  Reachable.insert empty state_b "b".toList Reachable.empty (by decide)

theorem reachable_state_a_b : Reachable state_a_b :=
  Reachable.insert _ state_a_b "b".toList
    (Reachable.insert empty
      ([node.mk 'a' (some 1) (some 2) [], nil_node, node.mk NIL none none ["a".toList]],
        { _root := some 0 })
      "a".toList Reachable.empty (by decide))
    (by decide)

/-! ## Invariants of the reachable states -/

/-- C14: in every state reachable from the empty structure by `insert` and
`erase`, a node whose character is not NIL and whose absent child is not a
placeholder holds a character below that of the absent child; so characters
grow along every chain of absent links. -/
theorem C14_absent_chain_ordered (s : Heap × anatree) (hs : Reachable s) (a b : Nat)
    (n m : node) (hn : s.1[a]? = some n) (hnil : n._char ≠ NIL)
    (hb : n.child_false = some b) (hm : s.1[b]? = some m) (hmnil : m._char ≠ NIL) :
    n._char < m._char := by
  obtain ⟨d, lb, inv⟩ := wellFormed_of_reachable hs
  obtain ⟨_, _, rest⟩ := inv a n hn
  obtain ⟨⟨b1, eb, _, pb⟩, _⟩ := rest hnil
  rw [hb] at eb
  cases eb
  exact (pb m hm).1 hmnil

/-- C14 on the state after `insert("a")` and `insert("b")`: the root holds 'a'
and its absent child holds 'b'. -/
theorem C14_absent_chain_ordered_witness :
    state_a_b.1[0]? = some (node.mk 'a' (some 1) (some 2) []) ∧
      state_a_b.1[1]? = some (node.mk 'b' (some 3) (some 4) []) ∧
      (node.mk 'a' (some 1) (some 2) [])._char < (node.mk 'b' (some 3) (some 4) [])._char :=
  ⟨by decide, by decide,
    C14_absent_chain_ordered state_a_b reachable_state_a_b 0 1 _ _ (by decide) (by decide) rfl
      (by decide) (by decide)⟩

/-- On every reachable state the fuel that `insert` gives to `insert_word`
does not run out, for every key, so `insert` returns (a value, or the failed
assertion of `insert_word`); the addresses carry a rank that grows along both
child pointers of every node whose character is not NIL, so no walk comes back
to a node; and within the key the loop of the skip case moves the cursor
forward and leaves it at the end of the key or on a character that is not
below that of the node. -/
theorem insert_returns_on_reachable (s : Heap × anatree) (hs : Reachable s) (w key : string) :
    insert_word (fuel_for s.1 key) s.1 s.2._root w key 0 ≠ .fault .out_of_fuel ∧
      insert s.1 s.2 w ≠ .fault .out_of_fuel ∧
      (∃ rank, Ranked s.1 rank) ∧
      (∀ (n : node) (curr : Nat) (c : Char), key[curr]? = some c → c < n._char →
        curr < skip key n._char (key.length - curr) curr ∧
        (skip key n._char (key.length - curr) curr = key.length ∨
          ∃ d, key[skip key n._char (key.length - curr) curr]? = some d ∧ ¬ d < n._char)) := by
  obtain ⟨d, lb, r, inv, er, lr, _⟩ := stateOK_of_reachable hs
  have rk := ranked_of_inv inv
  have ab := above_lt_length (rank_of s.1 d) lr
  have iw : ∀ k : string, insert_word (fuel_for s.1 k) s.1 s.2._root w k 0 ≠
      .fault .out_of_fuel := by
    intro k
    rw [er]
    exact (insert_word_terminates rk w k _ s.1 r 0 (le_refl _) (fun _ _ => rfl) lr
      (Nat.zero_le _)).2 (by unfold fuel_for; omega)
  refine ⟨iw key, ?_, ⟨_, rk⟩, ?_⟩
  · have q := iw (sorted_string w)
    simp only [insert]
    cases hres : insert_word (fuel_for s.1 (sorted_string w)) s.1 s.2._root w
      (sorted_string w) 0 with
    | ok res => intro q2; cases q2
    | fault x =>
      rw [hres] at q
      intro q2
      cases q2
      exact q rfl
  · intro n curr c hc hlt
    have lc := lt_length_of_key hc
    obtain ⟨_, _, _, i4⟩ :=
      skip_spec key n._char (key.length - curr) curr (by omega) (by omega)
    exact ⟨skip_advances key _ c curr hc hlt, i4⟩

/-- C16: on a well-formed heap, when `insert_word` is called on a node `n` at
`a` whose character is not NIL, with the cursor on a character `c` below that
of `n`, and the recursive call on the present child of `n` with the cursor
advanced by one returns the pointer `r`, then `insert_word` returns a new
address, which holds the character `c`, no words, the absent child `a` and the
present child `r`; the node at `a` is left as it was. -/
theorem C16_splice_case (fuel : Nat) (h : Heap) (a : Nat) (n : node) (w key : string)
    (curr : Nat) (c : Char) (h3 : Heap) (r : ptr) (wf : WellFormed h)
    (hn : h[a]? = some n) (hnil : n._char ≠ NIL) (hc : key[curr]? = some c)
    (hlt : c < n._char)
    (hrec : insert_word fuel (spliced h a c) n.child_true w key (curr + 1) = .ok (h3, r)) :
    h[h.length]? = none ∧
      ∃ h1, insert_word (fuel + 1) h (some a) w key curr = .ok (h1, some h.length) ∧
        h1[h.length]? = some (node.mk c (some a) r []) ∧ h1[a]? = some n := by
  obtain ⟨d, lb, inv⟩ := wf
  have ha := lt_length_of_getElem? hn
  obtain ⟨_, ct, rest⟩ := inv a n hn
  obtain ⟨_, ⟨t, et, dt, pt⟩⟩ := rest hnil
  have lt_ := ct t et
  obtain ⟨mt, hmt⟩ := getElem?_of_lt_length lt_
  refine ⟨List.getElem?_eq_none (le_refl _), ?_⟩
  rw [insert_word_splice fuel w hn hc hnil hlt, hrec]
  rw [et] at hrec
  have invS := inv_spliced inv hn hnil hlt
  have hSp : (spliced h a c)[h.length]? =
      some (node.mk c (some a) (some (h.length + 2)) []) := by
    rw [spliced_eq, getElem?_append_three, if_neg (Nat.lt_irrefl _), if_pos rfl]
  have hSt : (spliced h a c)[t]? = some mt := by
    rw [spliced_eq, List.getElem?_append_left lt_]
    exact hmt
  have hSa : (spliced h a c)[a]? = some n := by
    rw [spliced_eq, List.getElem?_append_left ha]
    exact hn
  have pre : Blank mt → ∀ c1 x, key[curr + 1]? = some c1 →
      (fun x => if x = h.length + 2 then none else lb x) t = some x → x < c1 := by
    intro bl c1 x _ q
    beta_reduce at q
    rw [if_neg (by omega), pt mt hmt bl] at q
    cases q
  obtain ⟨d1, lb1, a1, n1, er, _, _, _, _, _, _, frame⟩ :=
    insert_word_inv w key fuel (spliced h a c) t (curr + 1) _ _ mt h3 r invS hSt pre hrec
  have dS : ∀ x, x < h.length →
      (if x = h.length then d a else if x = h.length + 2 then d a + 1 else d x) = d x := by
    intro x l
    rw [if_neg (by omega), if_neg (by omega)]
  have h3p : h3[h.length]? = some (node.mk c (some a) (some (h.length + 2)) []) := by
    refine frame _ _ hSp (by omega) (Or.inl ?_)
    rw [dS t lt_, if_pos rfl, dt]
    omega
  have h3a : h3[a]? = some n := by
    refine frame _ _ hSa (fun q => ?_) (Or.inl ?_)
    · have q2 := dt
      rw [← q] at q2
      omega
    · rw [dS a ha, dS t lt_, dt]
      omega
  refine ⟨_, rfl, ?_, ?_⟩
  · rw [getElem?_update_self _ h3p]
  · rw [getElem?_update_ne _ (by omega)]
    exact h3a

/-- C16 on the state after `insert("b")`, for the word "a": the node of 'b' is
at address 0 and the new node of 'a' is created at address 3. -/
theorem C16_splice_case_witness :
    state_b.1[state_b.1.length]? = none ∧
      ∃ h1, insert_word (1 + 1) state_b.1 (some 0) "a".toList "a".toList 0
          = .ok (h1, some state_b.1.length) ∧
        h1[state_b.1.length]? = some (node.mk 'a' (some 0) (some 2) []) ∧
        h1[0]? = some (node.mk 'b' (some 1) (some 2) []) :=
  C16_splice_case 1 state_b.1 0 (node.mk 'b' (some 1) (some 2) []) "a".toList "a".toList 0 'a'
    (update (spliced state_b.1 0 'a') 2 (fun m => { m with _words := m._words ++ ["a".toList] }))
    (some 2) (wellFormed_of_reachable reachable_state_b) (by decide) (by decide) (by decide)
    (by decide) (by decide)

end Anatree
